import Mathlib

/-!
Verification development for the agent-framework-journey repository.

The demo scripts delegate graph execution to an external framework; the
node-level logic (keyword routers, classifiers, price aggregation, text
transforms) is embedded here directly from the Python source files, and
the workflow engine itself (builder validation, chain execution, fan-out
and fan-in delivery) is modelled from the specification where the engine
code is not part of the repository.

Strings from the Python code are modelled as lists of characters so that
lowercasing and substring containment are explicit; prices, which are
Python floats used only through addition and order comparison, are
modelled as rationals.
-/

namespace AFJ

/-! ## Substring containment, modelling the Python expression that tests
whether a keyword occurs inside a text (the in operator on str). -/

/-- Boolean test that the first list is an initial segment of the second. -/
def hasPre : List Char → List Char → Bool
  | [], _ => true
  | _ :: _, [] => false
  | a :: as, b :: bs => a == b && hasPre as bs

/-- Boolean test that the needle occurs contiguously inside the haystack,
modelling the Python membership operator on strings. -/
def containsSub (needle hay : List Char) : Bool :=
  match hay with
  | [] => needle.isEmpty
  | _ :: tl => hasPre needle hay || containsSub needle tl

/-- Propositional form of substring containment. -/
def SubOf (needle hay : List Char) : Prop :=
  ∃ p q, hay = p ++ needle ++ q

/-! ## Intent router, from MultiAgentDemo.detect_intent in
src/python/1.Agents/1.ai-foundry-agents/demo2-multi-agent.py. -/

/-- Nutrition-related keywords, from detect_intent. -/
def food_keywords : List (List Char) :=
  [("calories").toList, ("nutrition").toList, ("protein").toList,
   ("carbs").toList, ("fat").toList, ("vitamins").toList,
   ("nutrients").toList, ("ingredients").toList, ("analyze").toList]

/-- Meal-related keywords, from detect_intent. -/
def meal_keywords : List (List Char) :=
  [("suggest").toList, ("recommend").toList, ("meal").toList,
   ("breakfast").toList, ("lunch").toList, ("dinner").toList,
   ("recipe").toList, ("cook").toList, ("plan").toList, ("diet").toList]

/-- Keyword router from MultiAgentDemo.detect_intent: lowercase the input,
return food_expert when any nutrition keyword occurs, otherwise
meal_planner (both the meal-keyword branch and the fallback branch of the
Python code return meal_planner). -/
def detect_intent (user_input : List Char) : String :=
  let text := user_input.map Char.toLower
  if food_keywords.any (fun k => containsSub k text) then ("food_expert")
  else if meal_keywords.any (fun k => containsSub k text) then ("meal_planner")
  else ("meal_planner")

/-! ## Email classifier, from EmailClassifier.classify in
src/python/2.Workflow/1.Getting-started/1.Sequential-workflow/2.realworld-sequential-workflow.py. -/

/-- Raw customer email, from the CustomerEmail dataclass. -/
structure CustomerEmail where
  customer_name : String
  email_body : List Char
deriving DecidableEq

/-- Email with category assigned, from the ClassifiedEmail dataclass. -/
structure ClassifiedEmail where
  customer_name : String
  email_body : List Char
  category : String
deriving DecidableEq

/-- Billing keywords from EmailClassifier.classify. -/
def billing_keywords : List (List Char) :=
  [("bill").toList, ("payment").toList, ("charge").toList,
   ("invoice").toList, ("refund").toList]

/-- Technical keywords from EmailClassifier.classify. -/
def technical_keywords : List (List Char) :=
  [("error").toList, ("bug").toList, ("crash").toList,
   ("not working").toList, ("help").toList]

/-- Keyword classifier from EmailClassifier.classify: lowercase the body,
billing keywords first, then technical keywords, else general; the
customer name and body are copied into the outgoing message unchanged. -/
def classify (email : CustomerEmail) : ClassifiedEmail :=
  let body_lower := email.email_body.map Char.toLower
  let category :=
    if billing_keywords.any (fun k => containsSub k body_lower) then ("billing")
    else if technical_keywords.any (fun k => containsSub k body_lower) then ("technical")
    else ("general")
  { customer_name := email.customer_name
    email_body := email.email_body
    category := category }

/-! ## Price aggregation, from PriceAggregator.aggregate in
src/python/2.Workflow/1.Getting-started/2.Concurrent-workflow/2.realworld-concurrent-workflow.py.
Prices are Python floats used only through addition and order comparison;
they are modelled as rationals. -/

/-- Result from a single price source, from the PriceResult dataclass. -/
structure PriceResult where
  source : String
  product_name : String
  price : ℚ
  in_stock : Bool
  shipping : ℚ
  url : String
deriving DecidableEq

/-- Total price property of PriceResult: price plus shipping. -/
def PriceResult.total_price (r : PriceResult) : ℚ :=
  r.price + r.shipping

/-- Final output of the aggregator, from the AggregatedResults dataclass. -/
structure AggregatedResults where
  query : String
  results : List PriceResult
  best_deal : Option PriceResult
  search_time_ms : Nat
deriving DecidableEq

/-- Order on price results by total price, the sort key used by aggregate. -/
def totalLE (a b : PriceResult) : Prop :=
  a.total_price ≤ b.total_price

instance : DecidableRel totalLE :=
  fun a b => inferInstanceAs (Decidable (a.total_price ≤ b.total_price))

instance : IsTotal PriceResult totalLE :=
  ⟨fun a b => le_total a.total_price b.total_price⟩

instance : IsTrans PriceResult totalLE :=
  ⟨fun _ _ _ hab hbc => le_trans hab hbc⟩

/-- Aggregator handler from PriceAggregator.aggregate: sort all results by
total price with the stable sort used by the Python sorted builtin, pick
the first in-stock entry of the sorted list as the best deal (None when no
entry is in stock), take the product name of the first input as the query
(Unknown on an empty input), and set search_time_ms to zero as the code
does. -/
def aggregate (results : List PriceResult) : AggregatedResults :=
  let sorted_results := results.insertionSort totalLE
  let in_stock_results := sorted_results.filter (fun r => r.in_stock)
  { query := match results with
      | [] => ("Unknown")
      | r :: _ => r.product_name
    results := sorted_results
    best_deal := in_stock_results.head?
    search_time_ms := 0 }

/-! ## Workflow engine for a linear chain.
Modelled from the spec: the execution engine (work queue, event emission,
terminal outputs) lives in the external agent_framework package and is not
part of this repository; sections 4.2 and 8 of the spec describe it. Each
node of a linear chain applies its transform and sends the result to the
next node; the last node yields its result as the terminal output; every
invocation emits an invoked event followed by a completed event. -/

/-- Observation of execution for a chain run: node invoked or completed,
tagged with the node position. -/
inductive ChainEvent where
  | invoked (i : Nat)
  | completed (i : Nat)
deriving DecidableEq

/-- Modelled from the spec: sequential execution of the chain suffix whose
first node carries index i; returns the event trace and the terminal
output collection. -/
def runChainFrom (i : Nat) : List (α → α) → α → List ChainEvent × List α
  | [], _ => ([], [])
  | [t], x => ([ChainEvent.invoked i, ChainEvent.completed i], [t x])
  | t :: u :: rest, x =>
    let r := runChainFrom (i + 1) (u :: rest) (t x)
    (ChainEvent.invoked i :: ChainEvent.completed i :: r.1, r.2)

/-- Modelled from the spec: run a linear chain of transform nodes on an
initial input, node indices starting at zero. -/
def runChain (ts : List (α → α)) (x : α) : List ChainEvent × List α :=
  runChainFrom 0 ts x

/-- Canonical sequential trace for n nodes starting at index i: each node
emits invoked then completed, and all events of a node precede all events
of every later node. -/
def chainTrace (i n : Nat) : List ChainEvent :=
  match n with
  | 0 => []
  | m + 1 => ChainEvent.invoked i :: ChainEvent.completed i :: chainTrace (i + 1) m

/-- Predicate selecting invoked events. -/
def ChainEvent.isInvoked : ChainEvent → Bool
  | ChainEvent.invoked _ => true
  | ChainEvent.completed _ => false

/-- Predicate selecting completed events. -/
def ChainEvent.isCompleted : ChainEvent → Bool
  | ChainEvent.invoked _ => false
  | ChainEvent.completed _ => true

/-- Uppercasing transform from UpperCase.to_upper_case in
1.create-sequential-workflow.py (also UpperCase.process in
1b-class-based-executor.py): the Python text.upper(), modelled
characterwise. -/
def toUpperCase (text : List Char) : List Char :=
  text.map Char.toUpper

/-- Reversal transform from reverse_text in
1.create-sequential-workflow.py (also ReverseText.process in
1b-class-based-executor.py): the Python text[::-1]. -/
def reverseText (text : List Char) : List Char :=
  text.reverse

/-! ## Stateful chain nodes.
Modelled from the spec: node instances may hold private internal state
(spec sections 3 and 5); a pure node neither reads nor writes it. Used for
the two-run determinism property. -/

/-- Node with private state of type St processing values of type α. -/
structure SNode (St α : Type) where
  st : St
  step : St → α → St × α

/-- Proposition that a node is pure: its state is never changed and its
value output does not depend on the state. -/
def IsPureNode (n : SNode St α) : Prop :=
  (∀ s x, (n.step s x).1 = s) ∧ ∀ s t x, (n.step s x).2 = (n.step t x).2

/-- Modelled from the spec: run a chain of stateful nodes, returning the
terminal outputs and the node list with updated states. -/
def runChainS : List (SNode St α) → α → List α × List (SNode St α)
  | [], _ => ([], [])
  | [n], x =>
    let r := n.step n.st x
    ([r.2], [{ n with st := r.1 }])
  | n :: m :: rest, x =>
    let r := n.step n.st x
    let tail := runChainS (m :: rest) r.2
    (tail.1, { n with st := r.1 } :: tail.2)

/-! ## Fallible execution.
Modelled from the spec: error taxonomy of section 7. Build-time problems
are configuration errors; a node handler failure during a run surfaces as
an invocation error that fails the whole run. -/

/-- Error taxonomy from the spec: configuration errors at build time,
invocation errors at run time. -/
inductive RunError where
  | configuration (msg : String)
  | invocation (msg : String)
deriving DecidableEq

/-- Modelled from the spec: run a chain whose node handlers can fail; a
handler failure becomes an invocation error that fails the whole run. -/
def runChainE : List (α → Except String α) → α → Except RunError (List α)
  | [], x => Except.ok [x]
  | [t], x =>
    match t x with
    | Except.ok y => Except.ok [y]
    | Except.error m => Except.error (RunError.invocation m)
  | t :: u :: rest, x =>
    match t x with
    | Except.ok y => runChainE (u :: rest) y
    | Except.error m => Except.error (RunError.invocation m)

/-- Collect the fallible branch results on a common input, stopping at the
first failure. -/
def collectE {α β : Type} (x : α) : List (α → Except String β) → Except String (List β)
  | [] => Except.ok []
  | b :: rest =>
    match b x with
    | Except.ok v =>
      match collectE x rest with
      | Except.ok vs => Except.ok (v :: vs)
      | Except.error m => Except.error m
    | Except.error m => Except.error m

/-- Modelled from the spec: fan-out of one input to fallible branches
followed by fan-in into an aggregator; if any branch fails the whole run
fails with an invocation error instead of dropping the branch. -/
def runFanE {α β γ : Type} (bs : List (α → Except String β)) (agg : List β → γ) (x : α) :
    Except RunError γ :=
  match collectE x bs with
  | Except.ok vs => Except.ok (agg vs)
  | Except.error m => Except.error (RunError.invocation m)

/-! ## Graph builder validation.
Modelled from the spec: WorkflowBuilder.build in the external framework;
sections 4.1 and 8 of the spec describe the checks. A node type is
recorded as a numeric tag; an edge is type compatible when the output tag
of its source equals the input tag of its target; a registered node is
reachable, in the sense exercised by the spec, when it is the start node
or has an incoming edge. -/

/-- Registered node with declared input and output type tags. -/
structure BNode where
  ident : Nat
  inTy : Nat
  outTy : Nat
deriving DecidableEq

/-- Builder configuration: registered nodes, directed edges, start node. -/
structure Builder where
  nodes : List BNode
  edges : List (BNode × BNode)
  start : BNode
deriving DecidableEq

/-- Validation failures produced by build. -/
inductive BuildError where
  | typeMismatch
  | unreachableNode
deriving DecidableEq

/-- Immutable graph returned by a successful build. -/
structure Graph where
  nodes : List BNode
  edges : List (BNode × BNode)
  start : BNode
deriving DecidableEq

/-- Boolean check that every edge is type compatible. -/
def edgesOk (b : Builder) : Bool :=
  b.edges.all (fun e => e.1.outTy == e.2.inTy)

/-- Boolean check that every registered node is the start node or has an
incoming edge. -/
def nodesReachable (b : Builder) : Bool :=
  b.nodes.all (fun n => n == b.start || b.edges.any (fun e => e.2 == n))

/-- Modelled from the spec: build validates type compatibility of every
edge and reachability of every registered node, returning the immutable
graph on success, a type mismatch error when some edge is incompatible,
and an unreachable node error when some non-start node has no incoming
edge. -/
def build (b : Builder) : Except BuildError Graph :=
  if edgesOk b then
    if nodesReachable b then
      Except.ok { nodes := b.nodes, edges := b.edges, start := b.start }
    else Except.error BuildError.unreachableNode
  else Except.error BuildError.typeMismatch

/-! ## Fan-out and fan-in execution.
Modelled from the spec: the engine delivers the dispatched message
independently to every branch, buffers one message per source, and
invokes the fan-in target with the buffered collection only once every
source has delivered (spec section 4.2). The order in which branches
complete is nondeterministic; it is modelled by an explicit delivery
order, and the properties are proved for every delivery order. In the
price-comparison workflow of the repository the branches are the Amazon,
eBay and Walmart sources and the fan-in target is the aggregator. -/

/-- Observation of execution for a fan-out and fan-in run. -/
inductive FEvent where
  | invokedDispatcher
  | completedDispatcher
  | invokedSource (i : Nat)
  | completedSource (i : Nat)
  | invokedAggregator
  | completedAggregator
deriving DecidableEq

/-- Execution state of a fan-out and fan-in run: fan-in buffer, event
trace, terminal outputs, and the collections handed to the aggregator. -/
structure FanState (β γ : Type) where
  buffer : List β
  events : List FEvent
  outputs : List γ
  aggInputs : List (List β)
deriving DecidableEq

/-- Modelled from the spec: one branch completes and its message is
buffered for the fan-in group; when the buffer holds one message per
source the buffered collection is delivered to the aggregator, which
yields the aggregated terminal output. -/
def deliver {α β γ : Type} (bs : List (α → β)) (agg : List β → γ) (x : α)
    (st : FanState β γ) (i : Fin bs.length) : FanState β γ :=
  let v := bs.get i x
  let buf := st.buffer ++ [v]
  let evs := st.events ++ [FEvent.invokedSource i.val, FEvent.completedSource i.val]
  if buf.length = bs.length then
    { buffer := buf
      events := evs ++ [FEvent.invokedAggregator, FEvent.completedAggregator]
      outputs := st.outputs ++ [agg buf]
      aggInputs := st.aggInputs ++ [buf] }
  else
    { buffer := buf, events := evs, outputs := st.outputs, aggInputs := st.aggInputs }

/-- Modelled from the spec: process the branch completions in the given
delivery order. -/
def processSources {α β γ : Type} (bs : List (α → β)) (agg : List β → γ) (x : α) :
    List (Fin bs.length) → FanState β γ → FanState β γ
  | [], st => st
  | i :: rest, st => processSources bs agg x rest (deliver bs agg x st i)

/-- Modelled from the spec: a full fan-out and fan-in run; the dispatcher
is invoked first and fans the input out to every branch, then the branch
completions are processed in the given delivery order. -/
def runFanOutIn {α β γ : Type} (bs : List (α → β)) (agg : List β → γ) (x : α)
    (order : List (Fin bs.length)) : FanState β γ :=
  processSources bs agg x order
    { buffer := []
      events := [FEvent.invokedDispatcher, FEvent.completedDispatcher]
      outputs := []
      aggInputs := [] }

/-! ## Concrete inputs used by counterexamples and witnesses. -/

/-- Concrete price result: low price, nonzero shipping, in stock. -/
def exA : PriceResult :=
  { source := ("StoreA"), product_name := ("widget"), price := 100,
    in_stock := true, shipping := 10, url := ("urlA") }

/-- Concrete price result: higher price, free shipping, in stock; its
total price is below that of exA although its price is above. -/
def exB : PriceResult :=
  { source := ("StoreB"), product_name := ("widget"), price := 105,
    in_stock := true, shipping := 0, url := ("urlB") }

/-- Concrete builder node. -/
def nodeA : BNode := { ident := 0, inTy := 0, outTy := 1 }

/-- Concrete builder node whose input type matches the output of nodeA. -/
def nodeB : BNode := { ident := 1, inTy := 1, outTy := 2 }

/-- Concrete well-formed builder. -/
def builderOk : Builder :=
  { nodes := [nodeA, nodeB], edges := [(nodeA, nodeB)], start := nodeA }

/-- Concrete builder with a type-incompatible edge. -/
def builderBad : Builder :=
  { nodes := [nodeA, nodeB], edges := [(nodeB, nodeA)], start := nodeA }

/-- Concrete pure stateful node applying the uppercase transform. -/
def pureUpper : SNode Nat (List Char) :=
  { st := 0, step := fun s x => (s, toUpperCase x) }

/-- Concrete pure stateful node applying the reversal transform. -/
def pureRev : SNode Nat (List Char) :=
  { st := 0, step := fun s x => (s, reverseText x) }

/-! ## Theorems. -/

theorem hasPre_iff (n h : List Char) :
    hasPre n h = true ↔ ∃ q, h = n ++ q := by
  induction n generalizing h with
  | nil => simp [hasPre]
  | cons a as ih =>
    cases h with
    | nil => simp [hasPre]
    | cons b bs =>
      simp only [hasPre, Bool.and_eq_true, beq_iff_eq, ih]
      constructor
      · rintro ⟨rfl, q, rfl⟩
        exact ⟨q, rfl⟩
      · rintro ⟨q, hq⟩
        cases hq
        exact ⟨rfl, q, rfl⟩

theorem containsSub_iff (n h : List Char) :
    containsSub n h = true ↔ SubOf n h := by
  induction h with
  | nil =>
    simp only [containsSub, SubOf, List.isEmpty_iff]
    constructor
    · rintro rfl
      exact ⟨[], [], rfl⟩
    · rintro ⟨p, q, hpq⟩
      rcases List.append_eq_nil.mp (List.append_eq_nil.mp hpq.symm).1 with ⟨_, h1⟩
      exact h1
  | cons b bs ih =>
    simp only [containsSub, Bool.or_eq_true, hasPre_iff, ih, SubOf]
    constructor
    · rintro (⟨q, hq⟩ | ⟨p, q, hpq⟩)
      · exact ⟨[], q, by simpa using hq⟩
      · exact ⟨b :: p, q, by simp [hpq]⟩
    · rintro ⟨p, q, hpq⟩
      cases p with
      | nil => exact Or.inl ⟨q, by simpa using hpq⟩
      | cons c cs =>
        right
        refine ⟨cs, q, ?_⟩
        simp only [List.cons_append, List.cons.injEq] at hpq
        exact hpq.2

theorem runChainFrom_eq (x : α) :
    ∀ (ts : List (α → α)) (i : Nat), ts ≠ [] →
      runChainFrom i ts x =
        (chainTrace i ts.length, [ts.foldl (fun a t => t a) x]) := by
  intro ts
  induction ts generalizing x with
  | nil => intro i h; exact absurd rfl h
  | cons t rest ih =>
    intro i _
    cases rest with
    | nil => simp [runChainFrom, chainTrace]
    | cons u more =>
      have h := ih (t x) (i + 1) (by simp)
      simp only [runChainFrom, h, List.length_cons, List.foldl_cons, chainTrace]

theorem chainTrace_countP_invoked (n i : Nat) :
    (chainTrace i n).countP ChainEvent.isInvoked = n := by
  induction n generalizing i with
  | zero => simp [chainTrace]
  | succ m ih =>
    simp [chainTrace, List.countP_cons, ChainEvent.isInvoked, ih]

theorem chainTrace_countP_completed (n i : Nat) :
    (chainTrace i n).countP ChainEvent.isCompleted = n := by
  induction n generalizing i with
  | zero => simp [chainTrace]
  | succ m ih =>
    simp [chainTrace, List.countP_cons, ChainEvent.isCompleted, ih]

theorem chainTrace_get (n i j : Nat) (hj : j < n) :
    (chainTrace i n).get? (2 * j) = some (ChainEvent.invoked (i + j)) ∧
      (chainTrace i n).get? (2 * j + 1) = some (ChainEvent.completed (i + j)) := by
  induction n generalizing i j with
  | zero => omega
  | succ m ih =>
    cases j with
    | zero => simp [chainTrace]
    | succ k =>
      have hk : k < m := by omega
      rcases ih (i + 1) k hk with ⟨h4, h5⟩
      have e1 : 2 * (k + 1) = 2 * k + 1 + 1 := by ring
      have e2 : 2 * (k + 1) + 1 = 2 * k + 1 + 1 + 1 := by ring
      have e3 : i + 1 + k = i + (k + 1) := by omega
      rw [e3] at h4 h5
      constructor
      · rw [e1]
        simp only [chainTrace, List.get?_cons_succ]
        exact h4
      · rw [e2]
        simp only [chainTrace, List.get?_cons_succ]
        exact h5

theorem runChainS_pure_preserves (x : α) :
    ∀ ns : List (SNode St α), (∀ n ∈ ns, IsPureNode n) →
      (runChainS ns x).2 = ns := by
  intro ns
  induction ns generalizing x with
  | nil => intro _; rfl
  | cons n rest ih =>
    intro hp
    have hn : IsPureNode n := hp n (by simp)
    have hst : { n with st := (n.step n.st x).1 } = n := by
      cases n with
      | mk s f =>
        have h1 : (f s x).1 = s := hn.1 s x
        simp only [h1]
    cases rest with
    | nil => simp [runChainS, hst]
    | cons m more =>
      simp only [runChainS]
      rw [hst, ih ((n.step n.st x).2) (fun k hk => hp k (by simp [hk]))]

theorem processSources_spec {α β γ : Type} (bs : List (α → β)) (agg : List β → γ)
    (x : α) :
    ∀ (order : List (Fin bs.length)) (st : FanState β γ), order ≠ [] →
      st.buffer.length + order.length = bs.length →
      processSources bs agg x order st =
        { buffer := st.buffer ++ order.map (fun i => bs.get i x)
          events := st.events ++
            order.flatMap (fun i => [FEvent.invokedSource i.val, FEvent.completedSource i.val]) ++
            [FEvent.invokedAggregator, FEvent.completedAggregator]
          outputs := st.outputs ++ [agg (st.buffer ++ order.map (fun i => bs.get i x))]
          aggInputs := st.aggInputs ++ [st.buffer ++ order.map (fun i => bs.get i x)] } := by
  intro order
  induction order with
  | nil => intro st h; exact absurd rfl h
  | cons i rest ih =>
    intro st _ hlen
    cases rest with
    | nil =>
      have hfull : st.buffer.length + 1 = bs.length := by
        simp only [List.length_cons, List.length_nil] at hlen
        omega
      simp [processSources, deliver, hfull]
    | cons j more =>
      have hp1 : ¬ st.buffer.length + 1 = bs.length := by
        simp only [List.length_cons] at hlen
        omega
      have hd : deliver bs agg x st i =
          { buffer := st.buffer ++ [bs.get i x]
            events := st.events ++ [FEvent.invokedSource i.val, FEvent.completedSource i.val]
            outputs := st.outputs
            aggInputs := st.aggInputs } := by
        simp [deliver, hp1]
      have hstep := ih (deliver bs agg x st i) (by simp)
        (by
          rw [hd]
          simp only [List.length_append, List.length_cons, List.length_nil]
          simp only [List.length_cons] at hlen
          omega)
      show processSources bs agg x (j :: more) (deliver bs agg x st i) = _
      rw [hstep, hd]
      simp

/-! ## Shared helper lemmas. -/

theorem any_containsSub_true {ks : List (List Char)} {t : List Char}
    (h : ∃ k ∈ ks, SubOf k t) : ks.any (fun k => containsSub k t) = true := by
  rw [List.any_eq_true]
  rcases h with ⟨k, hk, hsub⟩
  exact ⟨k, hk, (containsSub_iff k t).mpr hsub⟩

theorem any_containsSub_false {ks : List (List Char)} {t : List Char}
    (h : ∀ k ∈ ks, ¬ SubOf k t) : ks.any (fun k => containsSub k t) = false := by
  rw [Bool.eq_false_iff]
  intro hc
  rcases List.any_eq_true.mp hc with ⟨k, hk, hks⟩
  exact h k hk ((containsSub_iff k t).mp hks)

/-! ## Claim theorems. -/

/-- C8: detect_intent is total and returns exactly one of food_expert or
meal_planner; it returns food_expert whenever the lowercased input
contains any nutrition keyword, even if meal keywords are also present;
and it returns meal_planner for every input containing no keyword from
either list. -/
theorem claimC8 (s : List Char) :
    (detect_intent s = ("food_expert") ∨ detect_intent s = ("meal_planner")) ∧
    ((∃ k ∈ food_keywords, SubOf k (s.map Char.toLower)) →
      detect_intent s = ("food_expert")) ∧
    ((∀ k ∈ food_keywords, ¬ SubOf k (s.map Char.toLower)) →
      (∀ k ∈ meal_keywords, ¬ SubOf k (s.map Char.toLower)) →
      detect_intent s = ("meal_planner")) := by
  refine ⟨?_, ?_, ?_⟩
  · simp only [detect_intent]
    split_ifs <;> simp
  · intro hex
    have h1 := any_containsSub_true hex
    simp [detect_intent, h1]
  · intro hf _
    have h1 := any_containsSub_false hf
    simp [detect_intent, h1]

/-- Witness for C8: a concrete input that contains the nutrition keyword
calories as well as the meal keyword lunch is routed to food_expert. -/
theorem claimC8_witness :
    detect_intent (("how many calories in lunch").toList) = ("food_expert") :=
  (claimC8 (("how many calories in lunch").toList)).2.1
    ⟨(("calories").toList), by decide,
      (("how many ").toList), ((" in lunch").toList), by decide⟩

/-- C9: classify assigns a category that is exactly one of billing,
technical or general; billing keywords take precedence over technical
keywords; and the outgoing ClassifiedEmail preserves the customer name
and email body of the input unchanged. -/
theorem claimC9 (e : CustomerEmail) :
    ((classify e).category = ("billing") ∨ (classify e).category = ("technical") ∨
      (classify e).category = ("general")) ∧
    ((∃ k ∈ billing_keywords, SubOf k (e.email_body.map Char.toLower)) →
      (classify e).category = ("billing")) ∧
    (classify e).customer_name = e.customer_name ∧
    (classify e).email_body = e.email_body := by
  refine ⟨?_, ?_, rfl, rfl⟩
  · simp only [classify]
    split_ifs <;> simp
  · intro hex
    have h1 := any_containsSub_true hex
    simp [classify, h1]

/-- Witness for C9: a concrete email whose body contains both the billing
keyword bill and the technical keyword error is classified as billing. -/
theorem claimC9_witness :
    (classify { customer_name := ("Dana"),
                email_body := (("the bill shows an error").toList) }).category =
      ("billing") :=
  (claimC9 { customer_name := ("Dana"),
             email_body := (("the bill shows an error").toList) }).2.1
    ⟨(("bill").toList), by decide,
      (("the ").toList), ((" shows an error").toList), by decide⟩

/-- Helper: characterization of the best deal being absent. -/
theorem aggregate_best_deal_none_iff (rs : List PriceResult) :
    (aggregate rs).best_deal = none ↔ ∀ r ∈ rs, r.in_stock = false := by
  have hperm := List.perm_insertionSort totalLE rs
  simp only [aggregate]
  rw [List.head?_eq_none_iff, List.filter_eq_nil_iff]
  constructor
  · intro h r hr
    have := h r (hperm.mem_iff.mpr hr)
    simpa using this
  · intro h r hr
    have := h r (hperm.mem_iff.mp hr)
    simp [this]

/-- C10: the aggregator handler is total on every list of results; on the
empty input it yields the query Unknown, an empty results list and no best
deal; and the best deal is absent exactly when no input element is in
stock, so the guarded indexing of the first in-stock element is never out
of bounds. -/
theorem claimC10 (rs : List PriceResult) :
    aggregate [] = { query := ("Unknown"), results := [], best_deal := none,
                     search_time_ms := 0 } ∧
    ((aggregate rs).best_deal = none ↔ ∀ r ∈ rs, r.in_stock = false) :=
  ⟨rfl, aggregate_best_deal_none_iff rs⟩

/-- Witness for C10: on a concrete single-element list whose entry is out
of stock the best deal is absent. -/
theorem claimC10_witness :
    (aggregate [{ source := ("StoreC"), product_name := ("widget"), price := 50,
                  in_stock := false, shipping := 0, url := ("urlC") }]).best_deal =
      none :=
  (claimC10 [{ source := ("StoreC"), product_name := ("widget"), price := 50,
               in_stock := false, shipping := 0, url := ("urlC") }]).2.mpr
    (by intro r hr; simp only [List.mem_singleton] at hr; rw [hr])

/-- C1: for every linear chain of N nodes and every input, the run yields
exactly one terminal output equal to the composition of the node
transforms applied to the input, and emits exactly N invoked plus N
completed events in strict producer-before-consumer order (the events of
node j occupy positions 2j and 2j+1 of the trace); in particular the
two-node chain UpperCase then ReverseText outputs the reversal of the
uppercased input. -/
theorem claimC1 {α : Type} (ts : List (α → α)) (x : α) (hts : ts ≠ []) :
    (runChain ts x).2 = [ts.foldl (fun a t => t a) x] ∧
    (runChain ts x).1.countP ChainEvent.isInvoked = ts.length ∧
    (runChain ts x).1.countP ChainEvent.isCompleted = ts.length ∧
    (∀ j, j < ts.length →
      (runChain ts x).1.get? (2 * j) = some (ChainEvent.invoked j) ∧
      (runChain ts x).1.get? (2 * j + 1) = some (ChainEvent.completed j)) ∧
    (∀ s : List Char,
      (runChain [toUpperCase, reverseText] s).2 = [reverseText (toUpperCase s)]) := by
  have h := runChainFrom_eq x ts 0 hts
  rw [runChain, h]
  refine ⟨rfl, chainTrace_countP_invoked ts.length 0,
    chainTrace_countP_completed ts.length 0, ?_, ?_⟩
  · intro j hj
    have hg := chainTrace_get ts.length 0 j hj
    simpa using hg
  · intro s
    rw [runChain, runChainFrom_eq s [toUpperCase, reverseText] 0 (by simp)]
    simp [List.foldl_cons]

/-- Witness for C1 at the concrete two-node chain on a concrete input. -/
theorem claimC1_witness :
    (runChain [toUpperCase, reverseText] (("hi").toList)).2 =
      [[toUpperCase, reverseText].foldl (fun a t => t a) (("hi").toList)] :=
  (claimC1 [toUpperCase, reverseText] (("hi").toList) (by simp)).1

/-- C4: running the two-node chain UpperCase then ReverseText on the
input hello world produces the terminal output DLROW OLLEH. -/
theorem claimC4 :
    (runChain [toUpperCase, reverseText] (("hello world").toList)).2 =
      [("DLROW OLLEH").toList] := by
  decide

/-! ## Price aggregation theorems. -/

/-- Helper: the output list of the aggregator is sorted by total price. -/
theorem aggregate_results_sorted (rs : List PriceResult) :
    (aggregate rs).results.Pairwise totalLE := by
  simp only [aggregate]
  exact List.sorted_insertionSort totalLE rs

/-- Helper: the output list of the aggregator is a permutation of the
input. -/
theorem aggregate_results_perm (rs : List PriceResult) :
    (aggregate rs).results.Perm rs := by
  simp only [aggregate]
  exact List.perm_insertionSort totalLE rs

/-- Helper: a present best deal is an in-stock input entry of minimal
total price among the in-stock entries. -/
theorem aggregate_best_deal_some (rs : List PriceResult) (b : PriceResult)
    (h : (aggregate rs).best_deal = some b) :
    b.in_stock = true ∧ b ∈ rs ∧
      ∀ r ∈ rs, r.in_stock = true → b.total_price ≤ r.total_price := by
  have hsorted : (List.insertionSort totalLE rs).Pairwise totalLE :=
    List.sorted_insertionSort totalLE rs
  have hperm := List.perm_insertionSort totalLE rs
  simp only [aggregate] at h
  rcases List.head?_eq_some_iff.mp h with ⟨t, ht⟩
  have hbmemf : b ∈ List.filter (fun r => r.in_stock) (List.insertionSort totalLE rs) := by
    rw [ht]
    simp
  have hbmems : b ∈ List.insertionSort totalLE rs := List.mem_of_mem_filter hbmemf
  have hstock : b.in_stock = true := by
    have := List.of_mem_filter hbmemf
    simpa using this
  refine ⟨hstock, hperm.subset hbmems, ?_⟩
  intro r hr hrstock
  have hrs : r ∈ List.insertionSort totalLE rs := hperm.mem_iff.mpr hr
  have hrf : r ∈ List.filter (fun r => r.in_stock) (List.insertionSort totalLE rs) :=
    List.mem_filter.mpr ⟨hrs, by simp [hrstock]⟩
  rw [ht] at hrf
  rcases List.mem_cons.mp hrf with rfl | hrt
  · exact le_refl _
  · have hpf : (b :: t).Pairwise totalLE := by
      rw [← ht]
      exact hsorted.sublist (List.filter_sublist _)
    exact List.rel_of_pairwise_cons hpf hrt

/-- C3 counterexample: on the concrete input [exA, exB] the output list is
not sorted by the price field in ascending order (the code sorts by total
price, and exB has the higher price but the lower total), and the best
deal is not the minimum-price in-stock entry exA. -/
theorem claimC3_counterexample :
    ¬ ((aggregate [exA, exB]).results.Pairwise
        (fun a b => a.price ≤ b.price)) ∧
    (aggregate [exA, exB]).best_deal ≠ some exA := by
  have hres : aggregate [exA, exB] =
      { query := ("widget"), results := [exB, exA], best_deal := some exB,
        search_time_ms := 0 } := by
    simp [aggregate, List.insertionSort, List.orderedInsert, totalLE,
      PriceResult.total_price, exA, exB]
    norm_num
  rw [hres]
  constructor
  · intro hc
    have := List.rel_of_pairwise_cons hc (List.mem_singleton_self exA)
    simp [exA, exB] at this
    norm_num at this
  · intro hc
    simp only [Option.some.injEq] at hc
    have : exB.price = exA.price := by rw [hc]
    simp [exA, exB] at this

/-- C3 amended: for every non-empty input list, the aggregator output
contains the input results sorted by total price (price plus shipping) in
ascending order, and the best deal, when present, is an in-stock entry of
minimal total price among the in-stock entries, absent exactly when
nothing is in stock. -/
theorem claimC3_amended (rs : List PriceResult) (_hne : rs ≠ []) :
    (aggregate rs).results.Pairwise totalLE ∧
    (aggregate rs).results.Perm rs ∧
    (∀ b, (aggregate rs).best_deal = some b →
      b.in_stock = true ∧ b ∈ rs ∧
        ∀ r ∈ rs, r.in_stock = true → b.total_price ≤ r.total_price) ∧
    ((aggregate rs).best_deal = none ↔ ∀ r ∈ rs, r.in_stock = false) :=
  ⟨aggregate_results_sorted rs, aggregate_results_perm rs,
    fun b h => aggregate_best_deal_some rs b h, aggregate_best_deal_none_iff rs⟩

/-- Witness for C3 on the concrete input [exA, exB]. -/
theorem claimC3_amended_witness :
    (aggregate [exA, exB]).results.Pairwise totalLE ∧
    (aggregate [exA, exB]).results.Perm [exA, exB] :=
  ⟨(claimC3_amended [exA, exB] (by simp)).1,
    (claimC3_amended [exA, exB] (by simp)).2.1⟩

/-! ## Builder validation theorems. -/

/-- Helper: boolean edge check in propositional form. -/
theorem edgesOk_iff (b : Builder) :
    edgesOk b = true ↔ ∀ e ∈ b.edges, e.1.outTy = e.2.inTy := by
  simp [edgesOk, List.all_eq_true]

/-- Helper: boolean reachability check in propositional form. -/
theorem nodesReachable_iff (b : Builder) :
    nodesReachable b = true ↔
      ∀ n ∈ b.nodes, n = b.start ∨ ∃ e ∈ b.edges, e.2 = n := by
  simp [nodesReachable, List.all_eq_true, List.any_eq_true]

/-- C5: build validates type compatibility of every edge and reachability
of every registered node and returns the immutable graph exactly when both
checks pass; it fails with a type mismatch error whenever some edge
connects a source whose output type disagrees with the target input type,
and fails with an unreachable node error whenever, all edges being
compatible, some registered node has no incoming edge and is not the
start node. -/
theorem claimC5 (b : Builder) :
    ((∃ e ∈ b.edges, e.1.outTy ≠ e.2.inTy) →
      build b = Except.error BuildError.typeMismatch) ∧
    ((∀ e ∈ b.edges, e.1.outTy = e.2.inTy) →
      (∃ n ∈ b.nodes, n ≠ b.start ∧ ∀ e ∈ b.edges, e.2 ≠ n) →
      build b = Except.error BuildError.unreachableNode) ∧
    (build b = Except.ok { nodes := b.nodes, edges := b.edges, start := b.start } ↔
      (∀ e ∈ b.edges, e.1.outTy = e.2.inTy) ∧
      (∀ n ∈ b.nodes, n = b.start ∨ ∃ e ∈ b.edges, e.2 = n)) := by
  refine ⟨?_, ?_, ?_⟩
  · rintro ⟨e, he, hne⟩
    have h1 : edgesOk b = false := by
      rw [Bool.eq_false_iff]
      intro hc
      exact hne ((edgesOk_iff b).mp hc e he)
    simp [build, h1]
  · intro hall hex
    have h1 : edgesOk b = true := (edgesOk_iff b).mpr hall
    have h2 : nodesReachable b = false := by
      rw [Bool.eq_false_iff]
      intro hc
      rcases hex with ⟨n, hn, hnstart, hnoedge⟩
      rcases (nodesReachable_iff b).mp hc n hn with h | ⟨e, he, h⟩
      · exact hnstart h
      · exact hnoedge e he h
    simp [build, h1, h2]
  · constructor
    · intro hok
      rw [build] at hok
      split_ifs at hok with h1 h2
      · exact ⟨(edgesOk_iff b).mp h1, (nodesReachable_iff b).mp h2⟩
    · rintro ⟨ha, hb⟩
      rw [build, if_pos ((edgesOk_iff b).mpr ha), if_pos ((nodesReachable_iff b).mpr hb)]

/-- Witness for C5: a concrete incompatible builder fails with a type
mismatch and a concrete well-formed builder builds successfully. -/
theorem claimC5_witness :
    build builderBad = Except.error BuildError.typeMismatch ∧
    build builderOk =
      Except.ok { nodes := [nodeA, nodeB], edges := [(nodeA, nodeB)], start := nodeA } :=
  ⟨(claimC5 builderBad).1 (by decide),
    ((claimC5 builderOk).2.2).mpr (by decide)⟩

/-- C6: two successive runs of the same chain of pure (stateless) nodes on
the same input produce the same terminal outputs; the second run starts
from the node states left by the first run, which purity keeps unchanged. -/
theorem claimC6 {St α : Type} (ns : List (SNode St α)) (x : α)
    (hp : ∀ n ∈ ns, IsPureNode n) :
    (runChainS ((runChainS ns x).2) x).1 = (runChainS ns x).1 := by
  rw [runChainS_pure_preserves x ns hp]

/-- Witness for C6 on a concrete two-node pure chain. -/
theorem claimC6_witness :
    (runChainS ((runChainS [pureUpper, pureRev] (("hi").toList)).2) (("hi").toList)).1 =
      (runChainS [pureUpper, pureRev] (("hi").toList)).1 :=
  claimC6 [pureUpper, pureRev] (("hi").toList)
    (by
      intro n hn
      simp only [List.mem_cons, List.not_mem_nil, or_false] at hn
      rcases hn with rfl | rfl
      · exact ⟨fun s x => rfl, fun s t x => rfl⟩
      · exact ⟨fun s x => rfl, fun s t x => rfl⟩)

/-- Helper: errors of a chain run are always invocation errors. -/
theorem runChainE_error_invocation {α : Type} :
    ∀ (ts : List (α → Except String α)) (x : α) (e : RunError),
      runChainE ts x = Except.error e → ∃ m, e = RunError.invocation m := by
  intro ts
  induction ts with
  | nil => intro x e h; exact absurd h (by simp [runChainE])
  | cons t rest ih =>
    intro x e h
    cases rest with
    | nil =>
      rw [runChainE] at h
      cases ht : t x with
      | ok y => rw [ht] at h; exact absurd h (by simp)
      | error m =>
        rw [ht] at h
        simp only [Except.error.injEq] at h
        exact ⟨m, h.symm⟩
    | cons u more =>
      rw [runChainE] at h
      cases ht : t x with
      | ok y =>
        rw [ht] at h
        exact ih y e h
      | error m =>
        rw [ht] at h
        simp only [Except.error.injEq] at h
        exact ⟨m, h.symm⟩

/-- Helper: if some branch handler fails on the dispatched input, the
collection phase fails. -/
theorem collectE_error_of_mem {α β : Type} (x : α)
    (bs : List (α → Except String β)) (b : α → Except String β) (m : String)
    (hb : b ∈ bs) (hfail : b x = Except.error m) :
    ∃ m2, collectE x bs = Except.error m2 := by
  induction bs with
  | nil => exact absurd hb (List.not_mem_nil b)
  | cons c rest ih =>
    rw [collectE]
    cases hc : c x with
    | ok v =>
      rcases List.mem_cons.mp hb with rfl | hbr
      · rw [hc] at hfail; exact absurd hfail (by simp)
      · rcases ih hbr with ⟨m2, hm2⟩
        rw [hm2]
        exact ⟨m2, rfl⟩
    | error m3 => exact ⟨m3, rfl⟩

/-- Helper: a successful collection means every branch succeeded. -/
theorem collectE_ok_all {α β : Type} (x : α) :
    ∀ (bs : List (α → Except String β)) (vs : List β),
      collectE x bs = Except.ok vs → ∀ b ∈ bs, ∃ w, b x = Except.ok w := by
  intro bs
  induction bs with
  | nil => intro vs _ b hb; exact absurd hb (List.not_mem_nil b)
  | cons c rest ih =>
    intro vs h b hb
    rw [collectE] at h
    cases hc : c x with
    | ok v =>
      rw [hc] at h
      cases hrest : collectE x rest with
      | ok ws =>
        rcases List.mem_cons.mp hb with rfl | hbr
        · exact ⟨v, hc⟩
        · exact ih ws hrest b hbr
      | error m => rw [hrest] at h; exact absurd h (by simp)
    | error m => rw [hc] at h; exact absurd h (by simp)

/-- C7: configuration errors exist only at build time: a run, whether a
chain or a fan-out with fan-in, only ever fails with an invocation error;
and whenever a branch handler fails during a fan run, the invocation
error propagates and fails the whole run, so a successful run certifies
that every branch handler succeeded (no branch is silently dropped). -/
theorem claimC7 {α β γ : Type} :
    (∀ (ts : List (α → Except String α)) (x : α) (e : RunError),
      runChainE ts x = Except.error e → ∃ m, e = RunError.invocation m) ∧
    (∀ (bs : List (α → Except String β)) (agg : List β → γ) (x : α) (e : RunError),
      runFanE bs agg x = Except.error e → ∃ m, e = RunError.invocation m) ∧
    (∀ (bs : List (α → Except String β)) (agg : List β → γ) (x : α)
      (b : α → Except String β) (m : String), b ∈ bs → b x = Except.error m →
      ∃ m2, runFanE bs agg x = Except.error (RunError.invocation m2)) ∧
    (∀ (bs : List (α → Except String β)) (agg : List β → γ) (x : α) (v : γ),
      runFanE bs agg x = Except.ok v → ∀ b ∈ bs, ∃ w, b x = Except.ok w) := by
  refine ⟨runChainE_error_invocation, ?_, ?_, ?_⟩
  · intro bs agg x e h
    rw [runFanE] at h
    cases hc : collectE x bs with
    | ok vs => rw [hc] at h; exact absurd h (by simp)
    | error m =>
      rw [hc] at h
      simp only [Except.error.injEq] at h
      exact ⟨m, h.symm⟩
  · intro bs agg x b m hb hfail
    rcases collectE_error_of_mem x bs b m hb hfail with ⟨m2, hm2⟩
    rw [runFanE, hm2]
    exact ⟨m2, rfl⟩
  · intro bs agg x v h b hb
    rw [runFanE] at h
    cases hc : collectE x bs with
    | ok vs => exact collectE_ok_all x bs vs hc b hb
    | error m => rw [hc] at h; exact absurd h (by simp)

/-- Witness for C7: a concrete fan run with one failing branch fails with
an invocation error. -/
theorem claimC7_witness :
    ∃ m2, runFanE [fun n => Except.ok (n + 1), fun _ => Except.error ("boom")]
        (fun l => l.foldl (fun a b => a + b) 0) 0 =
      Except.error (RunError.invocation m2) :=
  (claimC7 (α := Nat) (β := Nat) (γ := Nat)).2.2.1
    [fun n => Except.ok (n + 1), fun _ => Except.error ("boom")]
    (fun l => l.foldl (fun a b => a + b) 0) 0
    (fun _ => Except.error ("boom")) ("boom")
    (List.mem_cons_of_mem _ (List.mem_cons_self _ _)) rfl

/-- C2: for every fan-out to K branches followed by fan-in into an
aggregator and every delivery order of the branch completions, the
aggregator is invoked exactly once, with a collection of exactly K
elements (in delivery order, which is not guaranteed), it is never
invoked before all K sources have delivered, and the run completes, with
the aggregated terminal output, only after all K branches report; the
price-comparison workflow instantiates this with K equal to three. -/
theorem claimC2 {α β γ : Type} (bs : List (α → β)) (agg : List β → γ) (x : α)
    (order : List (Fin bs.length)) (hne : bs ≠ [])
    (hlen : order.length = bs.length) (hnd : order.Nodup) :
    (runFanOutIn bs agg x order).aggInputs = [order.map (fun i => bs.get i x)] ∧
    (order.map (fun i => bs.get i x)).length = bs.length ∧
    (∃ pre,
      (runFanOutIn bs agg x order).events =
        pre ++ [FEvent.invokedAggregator, FEvent.completedAggregator] ∧
      FEvent.invokedAggregator ∉ pre ∧
      ∀ i : Fin bs.length, FEvent.completedSource i.val ∈ pre) ∧
    (runFanOutIn bs agg x order).outputs = [agg (order.map (fun i => bs.get i x))] := by
  have horder : order ≠ [] := by
    intro hc
    rw [hc] at hlen
    exact hne (List.length_eq_zero.mp hlen.symm)
  have hrun := processSources_spec bs agg x order
    { buffer := []
      events := [FEvent.invokedDispatcher, FEvent.completedDispatcher]
      outputs := []
      aggInputs := [] } horder (by simpa using hlen)
  rw [runFanOutIn, hrun]
  have hmem : ∀ i : Fin bs.length, i ∈ order := by
    intro i
    have hcard : order.toFinset.card = bs.length := by
      rw [List.toFinset_card_of_nodup hnd, hlen]
    have huniv : order.toFinset = Finset.univ :=
      Finset.eq_univ_of_card order.toFinset (by rw [hcard, Fintype.card_fin])
    have hi : i ∈ order.toFinset := by
      rw [huniv]
      exact Finset.mem_univ i
    exact List.mem_toFinset.mp hi
  refine ⟨by simp, by simp [hlen], ?_, by simp⟩
  refine ⟨[FEvent.invokedDispatcher, FEvent.completedDispatcher] ++
    order.flatMap (fun i => [FEvent.invokedSource i.val, FEvent.completedSource i.val]),
    by simp, ?_, ?_⟩
  · intro hc
    simp at hc
  · intro i
    refine List.mem_append_right _ (List.mem_flatMap.mpr ⟨i, hmem i, ?_⟩)
    simp

/-- Witness for C2 with three concrete branches, a concrete aggregator and
a concrete out-of-order delivery. -/
theorem claimC2_witness :
    (runFanOutIn [fun n => n + 1, fun n => n * 2, fun n => n + 3]
        (fun l => l.foldl (fun a b => a + b) 0) 5 (([1, 0, 2] : List (Fin 3)))).aggInputs =
      [List.map (fun i => [fun n => n + 1, fun n => n * 2, fun n => n + 3].get i 5)
        (([1, 0, 2] : List (Fin 3)))] :=
  (claimC2 [fun n => n + 1, fun n => n * 2, fun n => n + 3]
    (fun l => l.foldl (fun a b => a + b) 0) 5 (([1, 0, 2] : List (Fin 3)))
    (by simp) (by decide) (by decide)).1

end AFJ
